import Mathlib

/-!
Verification development for the thematic clustering engine of the pkm
repository (Scripts/theme_clustering.py).  The Python source is shallowly
embedded: pure string manipulation becomes Lean functions on `String` /
`List Char`, Python `set` becomes `Finset String`, `collections.Counter`
becomes an insertion-ordered tally list, numpy / scikit-learn numerics are
modelled over `ℚ`, and fallible code returns `Option` / `Except`.
-/

/-- Python-level runtime errors raised by the script. -/
inductive PyError where
  | nameError (name : String)
  | valueError (msg : String)
deriving DecidableEq, Repr

/-! ### Small models of Python string / path primitives -/

/-- ASCII word characters: the `\w` class used by the inline-tag pattern
`#(\w+)` (the corpus is ASCII; Python's `\w` coincides with this there). -/
def isWordChar (c : Char) : Bool := c.isAlphanum || c = '_'

/-- `str.startswith(pre)`. -/
def pyStartsWith (s pre : String) : Bool := pre.data.isPrefixOf s.data

/-- `str.endswith(suf)`. -/
def pyEndsWith (s suf : String) : Bool := suf.data.reverse.isPrefixOf s.data.reverse

/-- The scanner behind `str.split` for a non-empty separator: leftmost,
non-overlapping.  Fuel-structural; every step consumes at least one input
character, so the input length is always enough fuel. -/
def splitGo (sep : List Char) : ℕ → List Char → List Char → List (List Char)
  | _, [], acc => [acc.reverse]
  | 0, l, acc => [acc.reverse ++ l]
  | fuel + 1, c :: rest, acc =>
    if sep.isPrefixOf (c :: rest) then
      acc.reverse :: splitGo sep fuel ((c :: rest).drop sep.length) []
    else splitGo sep fuel rest (c :: acc)

/-- `str.split(sep)` for a non-empty separator. -/
def pySplitOn (sep s : String) : List String :=
  (splitGo sep.data s.data.length s.data []).map String.mk

/-- Model of `str.split(sep, 2)` (maxsplit = 2): split at the first two
occurrences of `sep`, the remainder (with any further separators) kept
verbatim in the last field. -/
def pySplitMax2 (sep s : String) : List String :=
  let parts := pySplitOn sep s
  if parts.length ≤ 3 then parts
  else parts.take 2 ++ [String.intercalate sep (parts.drop 2)]

/-- Model of `os.path.basename`. -/
def pyBasename (p : String) : String := (pySplitOn "/" p).getLastD p

/-- Model of the stem part of `os.path.splitext`: cut at the last dot,
except when every character before that dot is itself a dot (CPython keeps
such names, e.g. `.bashrc`, whole). -/
def pyStem (name : String) : String :=
  let cs := name.data
  match cs.reverse.findIdx? (fun c => c = '.') with
  | none => name
  | some r =>
    let dotIdx := cs.length - 1 - r
    if (cs.take dotIdx).any (fun c => c != '.') then String.mk (cs.take dotIdx) else name

/-- `os.path.splitext(os.path.basename(p))[0]`, the title fallback. -/
def stemOfPath (p : String) : String := pyStem (pyBasename p)

/-- Model of `str.lower` (ASCII). -/
def pyLower (s : String) : String := String.mk (s.data.map Char.toLower)

/-- Model of `str.replace(' ', '-')` (a single-character pattern). -/
def dashForSpace (s : String) : String :=
  String.mk (s.data.map (fun c => if c = ' ' then '-' else c))

/-- Model of `str.title` (ASCII): a cased character starting a run of
letters is upper-cased, the rest of the run lower-cased. -/
def pyTitle (s : String) : String :=
  String.mk (go false s.data)
where
  go : Bool → List Char → List Char
    | _, [] => []
    | prevAlpha, c :: cs =>
      (if c.isAlpha then (if prevAlpha then c.toLower else c.toUpper) else c) :: go c.isAlpha cs

/-! ### The two regular expressions of `Note.from_file`

`re.findall(r'\[\[(.*?)\]\]', content)` and `re.findall(r'#(\w+)', content)`.
Both are modelled as left-to-right scanners over the character list, exactly
reproducing the leftmost, non-overlapping semantics of `re.findall`; with a
single capture group, `findall` returns the captured text only. -/

/-- After an opening `[[`: non-greedily consume characters other than a
newline (the `.` class) until the first `]]`; return the capture and the
remaining input, or `none` when no `]]` occurs before a newline / the end. -/
def scanToClose : List Char → List Char → Option (String × List Char)
  | [], _ => none
  | c :: rest, acc =>
    if c = ']' ∧ rest.head? = some ']' then some (String.mk acc.reverse, rest.tail)
    else if c = '\n' then none
    else scanToClose rest (c :: acc)

/-- The scan for `\[\[(.*?)\]\]`, driven by a fuel counter so that the
recursion is structural: every step consumes at least one character, so the
input length is always enough fuel and the zero-fuel branch is never
reached from `wikiLinksAux`. -/
def wikiLinksGo : ℕ → List Char → List String
  | _, [] => []
  | 0, _ => []
  | fuel + 1, c :: rest =>
    if c = '[' ∧ rest.head? = some '[' then
      match scanToClose rest.tail [] with
      | some (cap, rest') => cap :: wikiLinksGo fuel rest'
      | none => wikiLinksGo fuel rest
    else wikiLinksGo fuel rest

/-- `re.findall(r'\[\[(.*?)\]\]', s)`: every non-overlapping match's capture,
left to right.  On failure to close, the scan restarts one character later,
as the regex engine does. -/
def wikiLinksAux (l : List Char) : List String := wikiLinksGo l.length l

/-- The scan for `#(\w+)` with a fuel counter, structural as above. -/
def inlineTagsGo : ℕ → List Char → List String
  | _, [] => []
  | 0, _ => []
  | fuel + 1, c :: rest =>
    if c = '#' then
      let run := rest.takeWhile isWordChar
      if run.isEmpty then inlineTagsGo fuel rest
      else String.mk run :: inlineTagsGo fuel (rest.drop run.length)
    else inlineTagsGo fuel rest

/-- `re.findall(r'#(\w+)', s)`: the captured word (hash not included) of
every non-overlapping match, left to right, greedy `+`. -/
def inlineTagWords (l : List Char) : List String := inlineTagsGo l.length l

/-- Line 62: `links.update(re.findall(r'\[\[(.*?)\]\]', content))` — the set
of captured link targets. -/
def wikiLinksOf (s : String) : Finset String := (wikiLinksAux s.data).toFinset

/-- Line 65: `tags.update(tag[1:] for tag in re.findall(r'#(\w+)', content))`.
`findall` with one group yields the captured word (the `#` is already not
part of it); the source then additionally drops the first character of each
captured word. -/
def inlineTagsOf (s : String) : Finset String :=
  ((inlineTagWords s.data).map (fun w => w.drop 1)).toFinset

/-! ### The Note record and its extractor -/

/-- The `Note` dataclass (lines 28-35): `tags` and `links` are Python sets. -/
structure Note where
  path : String
  title : String
  content : String
  tags : Finset String
  links : Finset String
deriving DecidableEq

/-- The recognized shape of a successfully parsed YAML front-matter mapping:
the script reads only the `title` and `tags` keys (lines 52-57). -/
structure Metadata where
  title : Option String
  tags : Option (List String)

/-- `Note.from_file` (lines 37-71), with the file already read into
`content0`.  `yamlLoad` abstracts `yaml.safe_load`: `none` covers both a
parse exception and a falsy result (either way lines 54-57 do not run).
When the text starts with the marker but `'---'.split` yields fewer than
three fields, the tuple unpacking at line 50 raises `ValueError`, which the
outer `except` turns into `None` (the file is reported and dropped). -/
def from_file (yamlLoad : String → Option Metadata) (file_path content0 : String) :
    Option Note :=
  let title0 := stemOfPath file_path
  if pyStartsWith content0 "---" then
    match pySplitMax2 "---" content0 with
    | [_, fm, content] =>
      let md := yamlLoad fm
      let title := match md with | some m => m.title.getD title0 | none => title0
      let metaTags : List String := match md with | some m => m.tags.getD [] | none => []
      some { path := file_path, title := title, content := content,
             tags := metaTags.toFinset ∪ inlineTagsOf content,
             links := wikiLinksOf content }
    | _ => none
  else
    some { path := file_path, title := title0, content := content0,
           tags := inlineTagsOf content0, links := wikiLinksOf content0 }

/-- `collect_notes` (lines 117-132) over an abstract directory walk: `files`
is the walked (path, raw text) list; non-`.md` files are skipped and files
whose extraction returned `None` are dropped. -/
def collect_notes (yamlLoad : String → Option Metadata) (files : List (String × String)) :
    List Note :=
  (files.filter (fun f => pyEndsWith f.1 ".md")).filterMap (fun f => from_file yamlLoad f.1 f.2)

/-! ### `collections.Counter` and Python's stable sorts -/

/-- A `Counter` as an insertion-ordered association list. -/
def Tally := List (String × ℕ)

/-- `counter[k] += 1` (a missing key counts as 0). -/
def tallyAdd (t : List (String × ℕ)) (k : String) : List (String × ℕ) :=
  if t.any (fun p => p.1 = k) then t.map (fun p => if p.1 = k then (p.1, p.2 + 1) else p)
  else t ++ [(k, 1)]

/-- `counter.update(ks)`. -/
def tallyUpdate (t : List (String × ℕ)) (ks : List String) : List (String × ℕ) :=
  ks.foldl tallyAdd t

/-- One step of a stable insertion sort: `keep y x` means `y` stays in front
of the incoming later element `x`. -/
def insertStable (keep : α → α → Bool) (x : α) : List α → List α
  | [] => [x]
  | y :: ys => if keep y x then y :: insertStable keep x ys else x :: y :: ys

/-- Stable sort (Python's `sorted` is stable; ties keep first-encountered
order). -/
def stableSort (keep : α → α → Bool) (l : List α) : List α :=
  l.foldl (fun acc x => insertStable keep x acc) []

/-- `Counter.most_common(m)`: by descending count, ties in insertion order
(CPython sorts with a stable sort and `reverse=True`). -/
def mostCommon (t : List (String × ℕ)) (m : ℕ) : List (String × ℕ) :=
  (stableSort (fun y x => decide (x.2 ≤ y.2)) t).take m

/-- Code-point lexicographic comparison of character lists — Python's
string ordering. -/
def charListLe : List Char → List Char → Bool
  | [], _ => true
  | _ :: _, [] => false
  | a :: as, b :: bs => if a = b then charListLe as bs else decide (a < b)

/-- Python's `s <= t` on strings. -/
def strLe (s t : String) : Bool := charListLe s.data t.data

/-- The same as a relation, for the sorting machinery. -/
def strLeP (s t : String) : Prop := strLe s t = true

instance : DecidableRel strLeP := fun _ _ => inferInstanceAs (Decidable (_ = true))

theorem charListLe_total : ∀ as bs : List Char,
    charListLe as bs = true ∨ charListLe bs as = true := by
  intro as
  induction as with
  | nil => intro bs; left; rfl
  | cons a as ih =>
    intro bs
    cases bs with
    | nil => right; rfl
    | cons b bs =>
      by_cases hab : a = b
      · subst hab
        rcases ih bs with h | h
        · left; simpa [charListLe] using h
        · right; simpa [charListLe] using h
      · rcases lt_or_gt_of_ne hab with hlt | hgt
        · left; simp [charListLe, hab, hlt]
        · right
          have hba : ¬ b = a := fun hh => hab hh.symm
          simp [charListLe, hba, hgt]

theorem charListLe_trans : ∀ as bs cs : List Char,
    charListLe as bs = true → charListLe bs cs = true → charListLe as cs = true := by
  intro as
  induction as with
  | nil => intro bs cs _ _; rfl
  | cons a as ih =>
    intro bs cs h1 h2
    cases bs with
    | nil => simp [charListLe] at h1
    | cons b bs =>
      cases cs with
      | nil => simp [charListLe] at h2
      | cons c cs =>
        rw [charListLe] at h1 h2 ⊢
        by_cases hab : a = b
        · subst hab
          rw [if_pos rfl] at h1
          by_cases hac : a = c
          · rw [if_pos hac] at h2
            rw [if_pos hac]
            exact ih bs cs h1 h2
          · rw [if_neg hac] at h2
            rw [if_neg hac]
            exact h2
        · rw [if_neg hab] at h1
          have hab2 : a < b := of_decide_eq_true h1
          by_cases hbc : b = c
          · subst hbc
            rw [if_neg hab]
            exact h1
          · rw [if_neg hbc] at h2
            have hbc2 : b < c := of_decide_eq_true h2
            have hac2 : a < c := lt_trans hab2 hbc2
            rw [if_neg (ne_of_lt hac2)]
            exact decide_eq_true hac2

theorem charListLe_antisymm : ∀ as bs : List Char,
    charListLe as bs = true → charListLe bs as = true → as = bs := by
  intro as
  induction as with
  | nil =>
    intro bs h1 h2
    cases bs with
    | nil => rfl
    | cons b bs => simp [charListLe] at h2
  | cons a as ih =>
    intro bs h1 h2
    cases bs with
    | nil => simp [charListLe] at h1
    | cons b bs =>
      rw [charListLe] at h1 h2
      by_cases hab : a = b
      · subst hab
        rw [if_pos rfl] at h1 h2
        rw [ih bs h1 h2]
      · rw [if_neg hab] at h1
        rw [if_neg (fun hh => hab hh.symm)] at h2
        exact ((lt_asymm (of_decide_eq_true h1)) (of_decide_eq_true h2)).elim

instance : IsTotal String strLeP := ⟨fun s t => charListLe_total s.data t.data⟩

instance : IsTrans String strLeP :=
  ⟨fun s t u h1 h2 => charListLe_trans s.data t.data u.data h1 h2⟩

instance : IsAntisymm String strLeP :=
  ⟨fun s t h1 h2 => by
    obtain ⟨as⟩ := s
    obtain ⟨bs⟩ := t
    exact congrArg String.mk (charListLe_antisymm as bs h1 h2)⟩

/-- The ascending list of a Finset's elements.  Python iterates a `set` in
unspecified order; the model fixes the ascending order wherever the source
iterates a set (`' '.join(note.tags)`, `sorted(self.common_links)`, ...). -/
def sortedListBy {α : Type} (r : α → α → Prop) [DecidableRel r] [IsTotal α r]
    [IsTrans α r] [IsAntisymm α r] (s : Finset α) : List α :=
  Quot.liftOn s.val (fun l => List.insertionSort r l)
    (fun l₁ l₂ h =>
      List.eq_of_perm_of_sorted
        ((List.perm_insertionSort r l₁).trans (h.trans (List.perm_insertionSort r l₂).symm))
        (List.sorted_insertionSort r l₁) (List.sorted_insertionSort r l₂))

/-- A string Finset in Python's `sorted` order. -/
def sortedStrings (s : Finset String) : List String := sortedListBy strLeP s

/-! ### The ThemeCluster class and the theme pipeline -/

/-- Module-level configuration constants (lines 22-26); the float literals
are exact in binary and modelled as the equal rationals. -/
def MIN_THEME_SIZE : ℕ := 3

def SIMILARITY_THRESHOLD : ℚ := 3 / 10

def NOTES_DIR : String := "../02-Notes"

def PROJECTS_DIR : String := "../03-Projects"

/-- Names bound at module level of `Scripts/theme_clustering.py` by its
statements of lines 9-20 (`import os, re, yaml, datetime`,
`from collections import defaultdict`, `from pathlib import Path`,
`from typing import Dict, List, Set, Tuple`,
`from dataclasses import dataclass`, `import networkx as nx`,
`from sklearn... import TfidfVectorizer`, `... import DBSCAN`,
`import numpy as np`).  `Counter` is not among them. -/
def moduleImports : List String :=
  ["os", "re", "yaml", "datetime", "defaultdict", "Path", "Dict", "List", "Set",
   "Tuple", "dataclass", "nx", "TfidfVectorizer", "DBSCAN", "np"]

/-- The `ThemeCluster` class state (lines 73-80).  Its `__init__` evaluates
`Counter()` at line 79; in the actual module that name lookup fails, which
`analyze_cluster` below models (its own `Counter()` at line 183 is evaluated
first). -/
structure ThemeCluster where
  name : String
  description : String
  notes : List Note
  tags : List (String × ℕ)
  common_links : Finset String
deriving DecidableEq

/-- `ThemeCluster(name, description)` with the field initialisers of
lines 75-80 (reachable only in an environment where `Counter` resolves). -/
def mkThemeCluster (name description : String) : ThemeCluster :=
  { name := name, description := description, notes := [], tags := [], common_links := ∅ }

/-- `ThemeCluster.add_note` (lines 82-90).  Note the link update: an empty
(falsy) running `common_links` is *replaced* by the incoming note's links,
otherwise it is intersected.  Python iterates `note.tags` (a set) in
unspecified order; the resulting counts are order-independent, and the model
iterates in lexicographic order. -/
def add_note (c : ThemeCluster) (note : Note) : ThemeCluster :=
  { c with
    notes := c.notes ++ [note],
    tags := tallyUpdate c.tags (sortedStrings note.tags),
    common_links := if c.common_links = ∅ then note.links else c.common_links ∩ note.links }

/-- Model of `os.path.relpath(p, "..")` for the path shapes this pipeline
produces (every collected path starts with one of the configured roots
`../02-Notes` or `../03-Projects`): it strips the leading `../`. -/
def relpathParent (p : String) : String := if p.startsWith "../" then p.drop 3 else p

/-- `ThemeCluster.get_summary` (lines 92-115). -/
def get_summary (c : ThemeCluster) : String :=
  let coreTags := ", ".intercalate ((mostCommon c.tags 5).map (fun p => "#" ++ p.1))
  let nNotes := toString c.notes.length
  let header :=
    [s!"# Theme: {c.name}\n",
     s!"{c.description}\n",
     "## Overview",
     s!"- Notes: {nNotes}",
     s!"- Core Tags: {coreTags}",
     "\n## Notes in this Theme"]
  let noteLines :=
    (stableSort (fun y x => strLe y.title x.title) c.notes).map (fun nt =>
      let t := nt.title
      let rp := relpathParent nt.path
      s!"- [{t}]({rp})")
  let linkLines :=
    if c.common_links ≠ ∅ then
      ["\n## Common References", "These links appear in multiple notes:"] ++
        (sortedStrings c.common_links).map (fun l => s!"- [[{l}]]")
    else []
  "\n".intercalate (header ++ noteLines ++ linkLines)

/-- `analyze_cluster` (lines 180-201), evaluated in the environment `env` of
module-level names: its first statement `tag_counter = Counter()` looks up
the name `Counter`, raising `NameError` when it is unbound.  The remaining
statements run only when the lookup succeeds. -/
def analyze_cluster (env : List String) (notes : List Note) : Except PyError ThemeCluster :=
  if "Counter" ∈ env then
    let tagCounter := notes.foldl (fun t nt => tallyUpdate t (sortedStrings nt.tags)) []
    let topTags := (mostCommon tagCounter 3).map (fun p => p.1)
    let themeName := pyTitle (" ".intercalate topTags)
    let n := toString notes.length
    let ts := ", ".intercalate topTags
    let c0 := mkThemeCluster themeName s!"A collection of {n} notes related to {ts}."
    .ok (notes.foldl add_note c0)
  else .error (.nameError "Counter")

/-- `generate_theme_index` (lines 203-205). -/
def generate_theme_index (c : ThemeCluster) : String := get_summary c

/-- The per-theme output path of lines 229-233:
`os.path.join(NOTES_DIR, "meta", f"theme-{name.lower().replace(' ', '-')}.md")`. -/
def themeIndexPath (name : String) : String :=
  NOTES_DIR ++ "/meta/theme-" ++ dashForSpace (pyLower name) ++ ".md"

/-- The master index path of line 257. -/
def masterIndexPath : String := NOTES_DIR ++ "/meta/theme-clusters.md"

/-- The element list joined into the master index (lines 242-255); `now` is
the formatted `datetime.datetime.now()` reading of this run. -/
def masterIndexLines (now : String) (themes : List ThemeCluster) : List String :=
  let header :=
    ["# Thematic Clusters\n",
     s!"Generated on: {now}\n",
     "## Overview",
     s!"Found {themes.length} thematic clusters in your notes:\n"]
  let body :=
    (stableSort (fun y x => decide (x.notes.length ≤ y.notes.length)) themes).flatMap
      (fun t =>
        let nNotes := toString t.notes.length
        let coreTags := ", ".intercalate ((mostCommon t.tags 3).map (fun p => "#" ++ p.1))
        let fname := dashForSpace (pyLower t.name)
        [s!"### {t.name}",
         s!"- Notes: {nNotes}",
         s!"- Core Tags: {coreTags}",
         s!"- [View Full Analysis](theme-{fname}.md)\n"])
  header ++ body

/-- The rendered master index (line 259). -/
def masterIndex (now : String) (themes : List ThemeCluster) : String :=
  "\n".intercalate (masterIndexLines now themes)

/-! ### The similarity matrix (lines 134-155)

`TfidfVectorizer` L2-normalises each document row, so line 153,
`(tfidf_matrix * tfidf_matrix.T).toarray()`, gives at position (i, j) the
inner product of the normalised rows i and j — the cosine similarity of the
two document vectors.  The rows are modelled over `ℚ`. -/

/-- Inner product of two vectors (trailing entries of the longer one are
ignored, matching equal-dimension rows). -/
def dot (v w : List ℚ) : ℚ := (List.zipWith (fun a b => a * b) v w).sum

/-- Entry (i, j) of `(tfidf_matrix * tfidf_matrix.T).toarray()` for the row
list `rows`. -/
def simFn (rows : List (List ℚ)) (i j : ℕ) : ℚ := dot (rows.getD i []) (rows.getD j [])

/-! ### DBSCAN over a precomputed distance matrix (lines 157-178)

`find_clusters` runs
`DBSCAN(eps=1-SIMILARITY_THRESHOLD, min_samples=MIN_THEME_SIZE,
metric='precomputed').fit(1 - similarity)`.  The model below is extensionally
scikit-learn's deterministic implementation: the neighbourhood of `i` is row
`i`'s entries `≤ eps`; `i` is core when its neighbourhood has at least
`min_samples` members (the point itself counts only via its own diagonal
entry, exactly as with a precomputed matrix); clusters are seeded in
ascending index order, each seed expanding to the whole connected component
of core points (adjacent cores always share a cluster), and a non-core point
is claimed by the earliest-seeded cluster having a core point whose
neighbourhood contains it; everything else is noise (label -1, here
`none`). -/

section DBSCAN

variable {n : ℕ}

/-- The eps-neighbourhood of `i`: row `i` of the distance matrix. -/
def nbrs (d : Fin n → Fin n → ℚ) (eps : ℚ) (i : Fin n) : Finset (Fin n) :=
  Finset.univ.filter (fun j => d i j ≤ eps)

/-- Core point: at least `minPts` samples in its neighbourhood. -/
def isCore (d : Fin n → Fin n → ℚ) (eps : ℚ) (minPts : ℕ) (i : Fin n) : Prop :=
  minPts ≤ (nbrs d eps i).card

instance (d : Fin n → Fin n → ℚ) (eps : ℚ) (minPts : ℕ) :
    DecidablePred (isCore d eps minPts) :=
  fun i => inferInstanceAs (Decidable (minPts ≤ (nbrs d eps i).card))

/-- Two core points adjacent within `eps` belong to the same cluster. -/
def coreAdj (d : Fin n → Fin n → ℚ) (eps : ℚ) (minPts : ℕ) (i j : Fin n) : Prop :=
  isCore d eps minPts i ∧ isCore d eps minPts j ∧ d i j ≤ eps

instance (d : Fin n → Fin n → ℚ) (eps : ℚ) (minPts : ℕ) (i j : Fin n) :
    Decidable (coreAdj d eps minPts i j) :=
  inferInstanceAs (Decidable (_ ∧ _ ∧ _))

/-- One round of cluster expansion: adjoin every core point adjacent to the
set. -/
def expand (d : Fin n → Fin n → ℚ) (eps : ℚ) (minPts : ℕ) (s : Finset (Fin n)) :
    Finset (Fin n) :=
  s ∪ Finset.univ.filter (fun j => ∃ i ∈ s, coreAdj d eps minPts i j)

/-- The saturated expansion from seed `i`: `n` rounds reach the fixpoint, the
connected component of `i` in the core-adjacency graph. -/
def comp (d : Fin n → Fin n → ℚ) (eps : ℚ) (minPts : ℕ) (i : Fin n) : Finset (Fin n) :=
  (expand d eps minPts)^[n] {i}

/-- The seed loop: scan indices in ascending order; an unclaimed core point
seeds the next cluster, which is its whole component. -/
def coreCompsAux (d : Fin n → Fin n → ℚ) (eps : ℚ) (minPts : ℕ) :
    List (Fin n) → List (Finset (Fin n)) → List (Finset (Fin n))
  | [], acc => acc
  | i :: rest, acc =>
    if isCore d eps minPts i ∧ ∀ c ∈ acc, i ∉ c then
      coreCompsAux d eps minPts rest (acc ++ [comp d eps minPts i])
    else coreCompsAux d eps minPts rest acc

/-- The clusters' core parts, in label order. -/
def coreComps (d : Fin n → Fin n → ℚ) (eps : ℚ) (minPts : ℕ) : List (Finset (Fin n)) :=
  coreCompsAux d eps minPts (List.finRange n) []

/-- Index of the first list entry satisfying `p`. -/
def firstIdx? (p : α → Prop) [DecidablePred p] : List α → Option ℕ
  | [] => none
  | a :: l => if p a then some 0 else (firstIdx? p l).map (· + 1)

/-- The label a point ends up with (`none` = noise, label -1): a core point
belongs to its component's cluster; a non-core point is claimed by the first
cluster containing a core point within `eps` of it; otherwise noise. -/
def memberLabel (d : Fin n → Fin n → ℚ) (eps : ℚ) (minPts : ℕ) (j : Fin n) : Option ℕ :=
  if isCore d eps minPts j then firstIdx? (fun c => j ∈ c) (coreComps d eps minPts)
  else firstIdx? (fun c => ∃ i ∈ c, d i j ≤ eps) (coreComps d eps minPts)

/-- The clusters as index sets, one per label.  (The Python code groups notes
into a dict keyed by label, skipping label -1; its `list(clusters.values())`
enumerates the same clusters, in first-member order rather than label
order.) -/
def dbscanClusters (d : Fin n → Fin n → ℚ) (eps : ℚ) (minPts : ℕ) :
    List (Finset (Fin n)) :=
  (List.range (coreComps d eps minPts).length).map
    (fun k => Finset.univ.filter (fun j => memberLabel d eps minPts j = some k))

/-- The invariant of the seed loop: entry `k` is the component of a core
seed that belongs to no earlier entry. -/
def SeedInv (d : Fin n → Fin n → ℚ) (eps : ℚ) (minPts : ℕ)
    (cs : List (Finset (Fin n))) : Prop :=
  ∀ k (hk : k < cs.length), ∃ p, isCore d eps minPts p ∧ cs[k] = comp d eps minPts p ∧
    ∀ j (hj : j < k), p ∉ cs[j]

end DBSCAN

/-! ### The pipeline (lines 134-178 and `main`, lines 207-261) -/

/-- Model of `TfidfVectorizer(...).fit_transform`: the numeric rows produced
for a non-empty document list are abstracted by the parameter `vec`
(scikit-learn's exact floating-point tf-idf values are outside the model);
on an empty document list scikit-learn raises
`ValueError: empty vocabulary; ...`, which is what the empty-corpus claims
exercise. -/
def fit_transform (vec : List String → List (List ℚ)) (docs : List String) :
    Except PyError (List (List ℚ)) :=
  if docs.isEmpty then .error (.valueError "empty vocabulary") else .ok (vec docs)

/-- Line 144-147: the text handed to the vectorizer,
`f"{note.title} {' '.join(note.tags)} {note.content}"`.  Python joins the
tag set in unspecified order; the model fixes lexicographic order. -/
def documents (notes : List Note) : List String :=
  notes.map (fun nt =>
    let ts := " ".intercalate (sortedStrings nt.tags)
    let t := nt.title
    let c := nt.content
    s!"{t} {ts} {c}")

/-- Line 163: `distance_matrix = 1 - similarity_matrix`, as a function of the
vectorizer's rows. -/
def pipelineDist (rows : List (List ℚ)) (m : ℕ) : Fin m → Fin m → ℚ :=
  fun i j => 1 - simFn rows i.val j.val

/-- `find_clusters` (lines 157-178): build the similarity matrix, run DBSCAN
on `1 - similarity`, group non-noise notes by label. -/
def find_clusters (vec : List String → List (List ℚ)) (notes : List Note) :
    Except PyError (List (List Note)) := do
  let rows ← fit_transform vec (documents notes)
  let cls := dbscanClusters (pipelineDist rows notes.length)
    (1 - SIMILARITY_THRESHOLD) MIN_THEME_SIZE
  return cls.map (fun c => (sortedListBy (· ≤ ·) c).map (fun i => notes.get i))

/-- `main` (lines 207-261): collect, cluster, analyze every cluster, then
render one file per theme and the master index.  The returned value is the
list of (path, content) theme files together with the master index file;
any uncaught exception propagates (the `__main__` guard then prints it and
writes nothing further). -/
def mainRun (vec : List String → List (List ℚ)) (yamlLoad : String → Option Metadata)
    (now : String) (files : List (String × String)) :
    Except PyError (List (String × String) × (String × String)) := do
  let notes := collect_notes yamlLoad files
  let clusters ← find_clusters vec notes
  let themes ← clusters.mapM (analyze_cluster moduleImports)
  let themeFiles := themes.map (fun t => (themeIndexPath t.name, generate_theme_index t))
  return (themeFiles, (masterIndexPath, masterIndex now themes))

/-- The per-theme files a run leaves on disk: none when the run aborts. -/
def producedThemeFiles
    (r : Except PyError (List (String × String) × (String × String))) :
    List (String × String) :=
  match r with
  | .ok p => p.1
  | .error _ => []

instance {ε α : Type} [DecidableEq ε] [DecidableEq α] : DecidableEq (Except ε α) :=
  fun a b =>
    match a, b with
    | .error e, .error f => decidable_of_iff (e = f) (by simp)
    | .ok v, .ok w => decidable_of_iff (v = w) (by simp)
    | .error _, .ok _ => isFalse (by simp)
    | .ok _, .error _ => isFalse (by simp)

/-! ### Concrete inputs used by the witnesses and counterexamples below -/

/-- A `yaml.safe_load` model for files without (parsed) front matter. -/
def noYaml : String → Option Metadata := fun _ => none

/-- `yaml.safe_load` on the concrete front matter `"\ntags: [a, b]\n"`:
the mapping `{tags: [a, b]}`. -/
def yamlTagsAB : String → Option Metadata :=
  fun s => if s = "\ntags: [a, b]\n" then some ⟨none, some ["a", "b"]⟩ else none

/-- `yaml.safe_load` on the concrete front matter `"\ntitle: x"` (never
reached: the unpacking fails first on the unclosed block). -/
def yamlTitleX : String → Option Metadata :=
  fun s => if s = "\ntitle: x" then some ⟨some "x", none⟩ else none

/-- A degenerate vectorizer output (what it returns is irrelevant on an
empty corpus: `fit_transform` raises first). -/
def zeroVec : List String → List (List ℚ) := fun _ => []

/-- A vectorizer output for a one-document corpus whose single document has
no vocabulary terms: the zero row. -/
def vecOneZeroRow : List String → List (List ℚ) := fun _ => [[0]]

/-- A vectorizer output for a four-document corpus: three identical unit
rows and one orthogonal unit row. -/
def vecFour : List String → List (List ℚ) := fun _ => [[1, 0], [1, 0], [1, 0], [0, 1]]

/-- A minimal concrete note. -/
def plainNote (p t : String) : Note := ⟨p, t, "", ∅, ∅⟩

/-- Four concrete notes fed to `find_clusters` in the C7 witness. -/
def notesFour : List Note :=
  [plainNote "../02-Notes/a.md" "a", plainNote "../02-Notes/b.md" "b",
   plainNote "../02-Notes/c.md" "c", plainNote "../02-Notes/e.md" "e"]

/-- A note with no outgoing links. -/
def noteNoLinks : Note := ⟨"../02-Notes/n0.md", "n0", "", ∅, ∅⟩

/-- A note whose only link target is `a`. -/
def noteLinkA : Note := ⟨"../02-Notes/n1.md", "n1", "", ∅, {"a"}⟩

/-- A raw file whose metadata declares `tags: [a, b]` and whose body carries
the inline tag `#c`. -/
def contentC3 : String := "---\ntags: [a, b]\n---\nsee #c"

/-- What the extractor actually produces for the body `go #c [[]]`: the
empty string in both the tag set and the link set. -/
def noteBad : Note := ⟨"x.md", "x", "go #c [[]]", {""}, {""}⟩

/-- A one-file corpus for the idempotence counterexample. -/
def filesC6 : List (String × String) := [("../02-Notes/a.md", "hello")]

/-- The three notes of the single cluster `find_clusters` finds on
`notesFour` with `vecFour`. -/
def clusterFour : List Note := notesFour.take 3

/-- The same cluster as an index set. -/
def clusterIdxFour : Finset (Fin notesFour.length) :=
  {⟨0, by decide⟩, ⟨1, by decide⟩, ⟨2, by decide⟩}

/-- The index of the orthogonal fourth document, left as noise. -/
def noiseIdxFour : Fin notesFour.length := ⟨3, by decide⟩

/-! ## Lemmas about the inner product -/

theorem dot_nil_left (w : List ℚ) : dot [] w = 0 := rfl

theorem dot_nil_right (v : List ℚ) : dot v [] = 0 := by cases v <;> rfl

theorem dot_cons (a b : ℚ) (v w : List ℚ) :
    dot (a :: v) (b :: w) = a * b + dot v w := by
  simp [dot]

theorem dot_comm (v w : List ℚ) : dot v w = dot w v := by
  induction v generalizing w with
  | nil => cases w <;> simp [dot_nil_left, dot_nil_right]
  | cons a v ih =>
    cases w with
    | nil => simp [dot_nil_left, dot_nil_right]
    | cons b w => simp [dot_cons, ih, mul_comm]

theorem dot_eq_sum (v w : List ℚ) :
    dot v w = ∑ i ∈ Finset.range (min v.length w.length), v.getD i 0 * w.getD i 0 := by
  induction v generalizing w with
  | nil => simp [dot_nil_left]
  | cons a v ih =>
    cases w with
    | nil => simp [dot_nil_right]
    | cons b w =>
      rw [dot_cons, ih, List.length_cons, List.length_cons, Nat.succ_min_succ,
        Finset.sum_range_succ']
      simp [add_comm]

theorem dot_self_nonneg (v : List ℚ) : 0 ≤ dot v v := by
  induction v with
  | nil => simp [dot_nil_left]
  | cons a v ih => rw [dot_cons]; exact add_nonneg (mul_self_nonneg a) ih

theorem dot_nonneg {v w : List ℚ} (hv : ∀ x ∈ v, 0 ≤ x) (hw : ∀ x ∈ w, 0 ≤ x) :
    0 ≤ dot v w := by
  induction v generalizing w with
  | nil => simp [dot_nil_left]
  | cons a v ih =>
    cases w with
    | nil => simp [dot_nil_right]
    | cons b w =>
      rw [dot_cons]
      refine add_nonneg (mul_nonneg (hv a (by simp)) (hw b (by simp))) (ih ?_ ?_)
      · exact fun x hx => hv x (by simp [hx])
      · exact fun x hx => hw x (by simp [hx])

theorem dot_sq_le_mul (v w : List ℚ) : dot v w ^ 2 ≤ dot v v * dot w w := by
  rw [dot_eq_sum v w, dot_eq_sum v v, dot_eq_sum w w, min_self, min_self]
  have h := Finset.sum_mul_sq_le_sq_mul_sq (Finset.range (min v.length w.length))
    (fun i => v.getD i 0) (fun i => w.getD i 0)
  refine h.trans (mul_le_mul ?_ ?_ (Finset.sum_nonneg fun i _ => sq_nonneg _) ?_)
  · refine (Finset.sum_le_sum_of_subset_of_nonneg
      (Finset.range_subset.2 (min_le_left _ _)) fun i _ _ => sq_nonneg _).trans ?_
    exact le_of_eq (Finset.sum_congr rfl fun i _ => by ring)
  · refine (Finset.sum_le_sum_of_subset_of_nonneg
      (Finset.range_subset.2 (min_le_right _ _)) fun i _ _ => sq_nonneg _).trans ?_
    exact le_of_eq (Finset.sum_congr rfl fun i _ => by ring)
  · exact Finset.sum_nonneg fun i _ => mul_self_nonneg _

theorem dot_le_one {v w : List ℚ} (hv1 : dot v v ≤ 1) (hw1 : dot w w ≤ 1)
    (hvw : 0 ≤ dot v w) : dot v w ≤ 1 := by
  have h := dot_sq_le_mul v w
  have hA := dot_self_nonneg v
  have hB := dot_self_nonneg w
  nlinarith

theorem dot_eq_zero_of_self_eq_zero {v : List ℚ} (h : dot v v = 0) (w : List ℚ) :
    dot v w = 0 := by
  have hc := dot_sq_le_mul v w
  rw [h, zero_mul] at hc
  have h2 : dot v w ^ 2 = 0 := le_antisymm hc (sq_nonneg _)
  exact pow_eq_zero_iff (by norm_num) |>.1 h2

theorem dot_zero_row {v : List ℚ} (h : ∀ x ∈ v, x = 0) (w : List ℚ) : dot v w = 0 := by
  induction v generalizing w with
  | nil => simp [dot_nil_left]
  | cons a v ih =>
    cases w with
    | nil => simp [dot_nil_right]
    | cons b w =>
      rw [dot_cons, h a (by simp), zero_mul, zero_add]
      exact ih (fun x hx => h x (by simp [hx])) w

/-! ## Lemmas about the DBSCAN model -/

section DBSCANLemmas

variable {n : ℕ} (d : Fin n → Fin n → ℚ) (eps : ℚ) (minPts : ℕ)

theorem subset_expand (s : Finset (Fin n)) : s ⊆ expand d eps minPts s :=
  Finset.subset_union_left

theorem expand_mono {s t : Finset (Fin n)} (h : s ⊆ t) :
    expand d eps minPts s ⊆ expand d eps minPts t := by
  intro x hx
  rcases Finset.mem_union.1 hx with hx | hx
  · exact Finset.mem_union_left _ (h hx)
  · refine Finset.mem_union_right _ ?_
    rcases Finset.mem_filter.1 hx with ⟨-, i, hi, hadj⟩
    exact Finset.mem_filter.2 ⟨Finset.mem_univ _, i, h hi, hadj⟩

theorem subset_iterate (s : Finset (Fin n)) (k : ℕ) :
    s ⊆ (expand d eps minPts)^[k] s := by
  induction k with
  | zero => simp
  | succ k ih =>
    rw [Function.iterate_succ_apply']
    exact ih.trans (subset_expand d eps minPts _)

theorem iterate_stab {s : Finset (Fin n)} {k : ℕ}
    (h : (expand d eps minPts)^[k + 1] s = (expand d eps minPts)^[k] s) :
    ∀ j, k ≤ j → (expand d eps minPts)^[j] s = (expand d eps minPts)^[k] s := by
  intro j hj
  induction j, hj using Nat.le_induction with
  | base => rfl
  | succ j hj ih =>
    rw [Function.iterate_succ_apply', ih]
    rw [Function.iterate_succ_apply'] at h
    exact h

theorem iterate_card_ge {s : Finset (Fin n)} {k : ℕ}
    (hne : ∀ j, j < k → (expand d eps minPts)^[j + 1] s ≠ (expand d eps minPts)^[j] s) :
    k + s.card ≤ ((expand d eps minPts)^[k] s).card := by
  induction k with
  | zero => simp
  | succ k ih =>
    have h1 : k + s.card ≤ ((expand d eps minPts)^[k] s).card :=
      ih (fun j hj => hne j (Nat.lt_succ_of_lt hj))
    have hsub : (expand d eps minPts)^[k] s ⊆ (expand d eps minPts)^[k + 1] s := by
      rw [Function.iterate_succ_apply']
      exact subset_expand d eps minPts _
    have hlt : ((expand d eps minPts)^[k] s).card < ((expand d eps minPts)^[k + 1] s).card :=
      Finset.card_lt_card (Finset.ssubset_iff_subset_ne.2 ⟨hsub, Ne.symm (hne k (Nat.lt_succ_self k))⟩)
    omega

theorem expand_comp (i : Fin n) :
    expand d eps minPts (comp d eps minPts i) = comp d eps minPts i := by
  unfold comp
  by_contra hfix
  have hno : ∀ j, j < n →
      (expand d eps minPts)^[j + 1] ({i} : Finset (Fin n)) ≠ (expand d eps minPts)^[j] {i} := by
    intro j hj h
    have hst := iterate_stab d eps minPts h n (le_of_lt hj)
    apply hfix
    calc expand d eps minPts ((expand d eps minPts)^[n] {i})
        = expand d eps minPts ((expand d eps minPts)^[j] {i}) := by rw [hst]
      _ = (expand d eps minPts)^[j + 1] {i} := (Function.iterate_succ_apply' _ _ _).symm
      _ = (expand d eps minPts)^[j] {i} := h
      _ = (expand d eps minPts)^[n] {i} := hst.symm
  have hcard := iterate_card_ge d eps minPts hno
  have h1 : ((expand d eps minPts)^[n] ({i} : Finset (Fin n))).card ≤ n := by
    have := Finset.card_le_univ ((expand d eps minPts)^[n] ({i} : Finset (Fin n)))
    simpa using this
  simp only [Finset.card_singleton] at hcard
  omega

theorem mem_comp_self (i : Fin n) : i ∈ comp d eps minPts i :=
  subset_iterate d eps minPts {i} n (Finset.mem_singleton_self i)

theorem isCore_of_mem_iterate {i : Fin n} (hi : isCore d eps minPts i) :
    ∀ k x, x ∈ (expand d eps minPts)^[k] ({i} : Finset (Fin n)) → isCore d eps minPts x := by
  intro k
  induction k with
  | zero =>
    intro x hx
    rw [Function.iterate_zero_apply, Finset.mem_singleton] at hx
    exact hx ▸ hi
  | succ k ih =>
    intro x hx
    rw [Function.iterate_succ_apply'] at hx
    rcases Finset.mem_union.1 hx with hx | hx
    · exact ih x hx
    · rcases Finset.mem_filter.1 hx with ⟨-, i', hi', hadj⟩
      exact hadj.2.1

theorem isCore_of_mem_comp {i x : Fin n} (hi : isCore d eps minPts i)
    (hx : x ∈ comp d eps minPts i) : isCore d eps minPts x :=
  isCore_of_mem_iterate d eps minPts hi n x hx

theorem comp_closed_adj {i x y : Fin n} (hx : x ∈ comp d eps minPts i)
    (hadj : coreAdj d eps minPts x y) : y ∈ comp d eps minPts i := by
  rw [← expand_comp d eps minPts i]
  exact Finset.mem_union_right _ (Finset.mem_filter.2 ⟨Finset.mem_univ _, x, hx, hadj⟩)

theorem reaches_of_mem_iterate {i : Fin n} :
    ∀ k x, x ∈ (expand d eps minPts)^[k] ({i} : Finset (Fin n)) →
      Relation.ReflTransGen (coreAdj d eps minPts) i x := by
  intro k
  induction k with
  | zero =>
    intro x hx
    rw [Function.iterate_zero_apply, Finset.mem_singleton] at hx
    exact hx ▸ Relation.ReflTransGen.refl
  | succ k ih =>
    intro x hx
    rw [Function.iterate_succ_apply'] at hx
    rcases Finset.mem_union.1 hx with hx | hx
    · exact ih x hx
    · rcases Finset.mem_filter.1 hx with ⟨-, i', hi', hadj⟩
      exact (ih i' hi').tail hadj

theorem reaches_of_mem_comp {i x : Fin n} (hx : x ∈ comp d eps minPts i) :
    Relation.ReflTransGen (coreAdj d eps minPts) i x :=
  reaches_of_mem_iterate d eps minPts n x hx

theorem mem_of_reaches_closed {t : Finset (Fin n)} (hfix : expand d eps minPts t = t)
    {x y : Fin n} (hx : x ∈ t)
    (hr : Relation.ReflTransGen (coreAdj d eps minPts) x y) : y ∈ t := by
  induction hr with
  | refl => exact hx
  | tail hab hstep ih =>
    rw [← hfix]
    exact Finset.mem_union_right _ (Finset.mem_filter.2 ⟨Finset.mem_univ _, _, ih, hstep⟩)

theorem coreAdj_symm (hsym : ∀ i j, d i j = d j i) {x y : Fin n}
    (h : coreAdj d eps minPts x y) : coreAdj d eps minPts y x :=
  ⟨h.2.1, h.1, by rw [hsym y x]; exact h.2.2⟩

theorem seedInv_nil : SeedInv d eps minPts ([] : List (Finset (Fin n))) :=
  fun _ hk => absurd hk (by simp)

theorem seedInv_append {cs : List (Finset (Fin n))} (hacc : SeedInv d eps minPts cs)
    {p : Fin n} (hp : isCore d eps minPts p) (hnot : ∀ c ∈ cs, p ∉ c) :
    SeedInv d eps minPts (cs ++ [comp d eps minPts p]) := by
  intro k hk
  rw [List.length_append, List.length_singleton] at hk
  by_cases hlt : k < cs.length
  · obtain ⟨q, h1, h2, h3⟩ := hacc k hlt
    refine ⟨q, h1, ?_, ?_⟩
    · rw [List.getElem_append_left hlt]
      exact h2
    · intro j hj
      rw [List.getElem_append_left (hj.trans hlt)]
      exact h3 j hj
  · have hk2 : k = cs.length := by omega
    subst hk2
    refine ⟨p, hp, ?_, ?_⟩
    · simp
    · intro j hj
      rw [List.getElem_append_left hj]
      exact hnot _ (List.getElem_mem _)

theorem coreCompsAux_inv (l : List (Fin n)) (acc : List (Finset (Fin n)))
    (h : SeedInv d eps minPts acc) :
    SeedInv d eps minPts (coreCompsAux d eps minPts l acc) := by
  induction l generalizing acc with
  | nil => exact h
  | cons i l ih =>
    rw [coreCompsAux]
    split
    · rename_i hcond
      exact ih _ (seedInv_append d eps minPts h hcond.1 (fun c hc => hcond.2 c hc))
    · exact ih _ h

theorem coreComps_inv : SeedInv d eps minPts (coreComps d eps minPts) :=
  coreCompsAux_inv d eps minPts _ _ (seedInv_nil d eps minPts)

theorem coreComps_entry {k : ℕ} (hk : k < (coreComps d eps minPts).length) :
    (∀ x ∈ (coreComps d eps minPts)[k], isCore d eps minPts x) ∧
      expand d eps minPts ((coreComps d eps minPts)[k]) = (coreComps d eps minPts)[k] := by
  obtain ⟨p, hp, he, -⟩ := coreComps_inv d eps minPts k hk
  rw [he]
  exact ⟨fun x hx => isCore_of_mem_comp d eps minPts hp hx, expand_comp d eps minPts p⟩

end DBSCANLemmas

theorem firstIdx?_spec {α : Type} (p : α → Prop) [DecidablePred p] {l : List α} {k : ℕ}
    (h : firstIdx? p l = some k) :
    ∃ hk : k < l.length, p l[k] ∧ ∀ j (hj : j < k), ¬ p l[j] := by
  induction l generalizing k with
  | nil => simp [firstIdx?] at h
  | cons a l ih =>
    rw [firstIdx?] at h
    split at h
    · rename_i hpa
      obtain rfl : (0 : ℕ) = k := Option.some.inj h
      exact ⟨by simp, by simpa using hpa, fun j hj => absurd hj (by omega)⟩
    · rename_i hpa
      obtain ⟨k', hk', rfl⟩ := Option.map_eq_some'.1 h
      obtain ⟨hlt, hpk, hmin⟩ := ih hk'
      refine ⟨by simpa using Nat.succ_lt_succ hlt, by simpa using hpk, ?_⟩
      intro j hj
      cases j with
      | zero => simpa using hpa
      | succ j => simpa using hmin j (by omega)

theorem firstIdx?_eq_some {α : Type} (p : α → Prop) [DecidablePred p] {l : List α} {k : ℕ}
    (hk : k < l.length) (hp : p l[k]) (hmin : ∀ j (hj : j < k), ¬ p l[j]) :
    firstIdx? p l = some k := by
  induction l generalizing k with
  | nil => simp at hk
  | cons a l ih =>
    cases k with
    | zero => rw [firstIdx?, if_pos (by simpa using hp)]
    | succ k =>
      have hpa : ¬ p a := by simpa using hmin 0 (by omega)
      rw [firstIdx?, if_neg hpa,
        ih (by simpa using hk) (by simpa using hp)
          (fun j hj => by simpa using hmin (j + 1) (by omega))]
      rfl

theorem firstIdx?_le {α : Type} (p : α → Prop) [DecidablePred p] {l : List α} {k : ℕ}
    (hk : k < l.length) (hp : p l[k]) :
    ∃ q, firstIdx? p l = some q ∧ q ≤ k := by
  induction l generalizing k with
  | nil => simp at hk
  | cons a l ih =>
    by_cases hpa : p a
    · exact ⟨0, by rw [firstIdx?, if_pos hpa], by omega⟩
    · cases k with
      | zero => exact absurd (by simpa using hp) hpa
      | succ k =>
        obtain ⟨q, hq, hle⟩ := ih (by simpa using hk) (by simpa using hp)
        exact ⟨q + 1, by rw [firstIdx?, if_neg hpa, hq]; rfl, by omega⟩

/-- The density invariant of the clustering step: with `min_samples = 3`, a
symmetric distance matrix in which any point with a near neighbour is near
itself makes every DBSCAN cluster contain at least 3 points, and noise
belongs to no cluster. -/
theorem dbscan_min_size {n : ℕ} (d : Fin n → Fin n → ℚ) (eps : ℚ)
    (hsym : ∀ i j, d i j = d j i)
    (hself : ∀ i j, d i j ≤ eps → d i i ≤ eps) :
    ∀ c ∈ dbscanClusters d eps 3,
      3 ≤ c.card ∧ ∀ x, memberLabel d eps 3 x = none → x ∉ c := by
  intro c hc
  simp only [dbscanClusters, List.mem_map, List.mem_range] at hc
  obtain ⟨k, hkmem, rfl⟩ := hc
  refine ⟨?_, ?_⟩
  swap
  · intro x h0 hx
    rw [Finset.mem_filter, h0] at hx
    exact Option.noConfusion hx.2
  obtain ⟨p, hpcore, hck, hpnot⟩ := coreComps_inv d eps 3 k hkmem
  have hsub : nbrs d eps p ⊆
      Finset.univ.filter (fun j => memberLabel d eps 3 j = some k) := by
    intro q hq
    rw [nbrs, Finset.mem_filter] at hq
    have hdpq : d p q ≤ eps := hq.2
    refine Finset.mem_filter.2 ⟨Finset.mem_univ _, ?_⟩
    by_cases hqc : isCore d eps 3 q
    · unfold memberLabel
      rw [if_pos hqc]
      have hqmem : q ∈ (coreComps d eps 3)[k] := by
        rw [hck]
        exact comp_closed_adj d eps 3 (mem_comp_self d eps 3 p) ⟨hpcore, hqc, hdpq⟩
      refine firstIdx?_eq_some (fun c => q ∈ c) hkmem hqmem ?_
      intro j hj hqj
      obtain ⟨pj, hpjcore, hcj, -⟩ := coreComps_inv d eps 3 j (hj.trans hkmem)
      have hqcomp : q ∈ comp d eps 3 p := by rw [← hck]; exact hqmem
      have hreachpq := reaches_of_mem_comp d eps 3 hqcomp
      have hsymR : Symmetric (coreAdj d eps 3) :=
        fun a b hab => coreAdj_symm d eps 3 hsym hab
      have hreachqp := Relation.ReflTransGen.symmetric hsymR hreachpq
      have hclosed : expand d eps 3 ((coreComps d eps 3)[j]) = (coreComps d eps 3)[j] := by
        rw [hcj]
        exact expand_comp d eps 3 pj
      exact hpnot j hj (mem_of_reaches_closed d eps 3 hclosed hqj hreachqp)
    · unfold memberLabel
      rw [if_neg hqc]
      have hpred : ∃ i ∈ (coreComps d eps 3)[k], d i q ≤ eps :=
        ⟨p, by rw [hck]; exact mem_comp_self d eps 3 p, hdpq⟩
      obtain ⟨q', hq', hle⟩ := firstIdx?_le (fun c => ∃ i ∈ c, d i q ≤ eps) hkmem hpred
      rcases Nat.lt_or_ge q' k with hlt | hge
      · exfalso
        obtain ⟨hk', hpk', -⟩ := firstIdx?_spec (fun c => ∃ i ∈ c, d i q ≤ eps) hq'
        obtain ⟨i', hi'mem, hi'd⟩ := hpk'
        have hi'core : isCore d eps 3 i' := (coreComps_entry d eps 3 hk').1 i' hi'mem
        have hdqp : d q p ≤ eps := by rw [hsym q p]; exact hdpq
        have hdqq : d q q ≤ eps := hself q p hdqp
        have hdqi : d q i' ≤ eps := by rw [hsym q i']; exact hi'd
        have hqp : q ≠ p := fun h => hqc (h ▸ hpcore)
        have hqi : q ≠ i' := fun h => hqc (h ▸ hi'core)
        have hpi : p ≠ i' := fun h => hpnot q' hlt (h ▸ hi'mem)
        have hsub3 : ({q, p, i'} : Finset (Fin n)) ⊆ nbrs d eps q := by
          intro x hx
          simp only [Finset.mem_insert, Finset.mem_singleton] at hx
          rcases hx with rfl | rfl | rfl
          · exact Finset.mem_filter.2 ⟨Finset.mem_univ _, hdqq⟩
          · exact Finset.mem_filter.2 ⟨Finset.mem_univ _, hdqp⟩
          · exact Finset.mem_filter.2 ⟨Finset.mem_univ _, hdqi⟩
        have hcard3 : ({q, p, i'} : Finset (Fin n)).card = 3 := by
          rw [Finset.card_insert_of_not_mem (by simp [hqp, hqi]),
            Finset.card_insert_of_not_mem (by simp [hpi]), Finset.card_singleton]
        refine hqc ?_
        show 3 ≤ (nbrs d eps q).card
        rw [← hcard3]
        exact Finset.card_le_card hsub3
      · rw [le_antisymm hle hge] at hq'
        exact hq'
  exact le_trans hpcore (Finset.card_le_card hsub)

/-! ## Pipeline-level helper lemmas -/

/-- With the module's actual imports, `analyze_cluster` always raises
`NameError: Counter` — on empty and non-empty clusters alike. -/
theorem analyze_cluster_fails (notes : List Note) :
    analyze_cluster moduleImports notes = .error (.nameError "Counter") := by
  unfold analyze_cluster
  rw [if_neg (by decide)]

/-- No run of `main` ever produces a theme file: a run with at least one
cluster dies in `analyze_cluster`, and a run with none has nothing to
render. -/
theorem no_theme_files (vec : List String → List (List ℚ))
    (yl : String → Option Metadata) (now : String) (files : List (String × String)) :
    producedThemeFiles (mainRun vec yl now files) = [] := by
  unfold mainRun producedThemeFiles
  dsimp only
  cases hfc : find_clusters vec (collect_notes yl files) with
  | error e => rfl
  | ok clusters =>
    cases clusters with
    | nil => rfl
    | cons c cs => rfl

/-- Every word captured by the `#(\w+)` scan is non-empty (the `+` requires
at least one word character); the empty tags of the observed behaviour come
from the later `tag[1:]` slice alone. -/
theorem inlineTagsGo_ne_nil (fuel : ℕ) :
    ∀ l : List Char, ∀ w ∈ inlineTagsGo fuel l, w ≠ "" := by
  induction fuel with
  | zero =>
    intro l w hw
    cases l <;> simp [inlineTagsGo] at hw
  | succ fuel ih =>
    intro l w hw
    cases l with
    | nil => simp [inlineTagsGo] at hw
    | cons c rest =>
      rw [inlineTagsGo] at hw
      by_cases hc : c = '#'
      · rw [if_pos hc] at hw
        by_cases hrun : (rest.takeWhile isWordChar).isEmpty
        · rw [if_pos hrun] at hw
          exact ih rest w hw
        · rw [if_neg hrun] at hw
          rcases List.mem_cons.1 hw with rfl | hw
          · intro hcon
            apply hrun
            rw [List.isEmpty_iff]
            have hdata := congrArg String.data hcon
            simpa using hdata
          · exact ih _ w hw
      · rw [if_neg hc] at hw
        exact ih rest w hw

/-- Every word captured by the `#(\w+)` scan is non-empty (the `+` requires
at least one word character); the empty tags in the observed behaviour come
from the later `tag[1:]` slice alone. -/
theorem inlineTagWords_ne_nil : ∀ l : List Char, ∀ w ∈ inlineTagWords l, w ≠ "" :=
  fun l => inlineTagsGo_ne_nil l.length l

/-! ## The claims -/

section Claims

attribute [local semireducible] Rat.add Rat.sub Rat.mul Rat.inv

/-- C1: the name `Counter` is bound by no import of the module, so
`analyze_cluster` raises `NameError` on every (in particular every
non-empty) cluster, and no run of the pipeline ever produces a theme
summary / theme index file. -/
theorem c1_counter_unbound (cluster : List Note) (_hne : cluster ≠ [])
    (vec : List String → List (List ℚ)) (yl : String → Option Metadata)
    (now : String) (files : List (String × String)) :
    "Counter" ∉ moduleImports ∧
    analyze_cluster moduleImports cluster = .error (.nameError "Counter") ∧
    producedThemeFiles (mainRun vec yl now files) = [] :=
  ⟨by decide, analyze_cluster_fails cluster, no_theme_files vec yl now files⟩

theorem c1_witness :
    "Counter" ∉ moduleImports ∧
    analyze_cluster moduleImports [noteNoLinks] = .error (.nameError "Counter") ∧
    producedThemeFiles (mainRun zeroVec noYaml "2025-10-12 00:00:00" []) = [] :=
  c1_counter_unbound [noteNoLinks] (by simp) zeroVec noYaml "2025-10-12 00:00:00" []

/-- C2 counterexample: a file whose text opens the front-matter marker once
and never repeats it is dropped, not kept: extraction returns `None` (the
3-way unpacking of a 2-element split raises `ValueError`, caught by the
outer handler) and the corpus is empty. -/
theorem c2_counterexample :
    from_file yamlTitleX "Notes/alpha.md" "---\ntitle: x" = none ∧
    collect_notes yamlTitleX [("Notes/alpha.md", "---\ntitle: x")] = [] := by
  constructor
  · decide
  · decide

/-- C2 amended: for every file that opens with the marker and contains it
exactly once, extraction fails (returns `None`) and the pipeline merely
drops that file, continuing with the rest of the corpus. -/
theorem c2_amended (yl : String → Option Metadata) (p c : String)
    (rest : List (String × String))
    (h1 : pyStartsWith c "---") (h2 : (pySplitOn "---" c).length = 2) :
    from_file yl p c = none ∧
    collect_notes yl ((p, c) :: rest) = collect_notes yl rest := by
  have hf : from_file yl p c = none := by
    obtain ⟨a, b, hab⟩ := List.length_eq_two.1 h2
    unfold from_file pySplitMax2
    rw [if_pos h1, hab]
    simp
  refine ⟨hf, ?_⟩
  unfold collect_notes
  rw [List.filter_cons]
  split
  · simp [List.filterMap_cons, hf]
  · rfl

theorem c2_witness :
    from_file noYaml "Notes/alpha.md" "---\ntitle: x" = none ∧
    collect_notes noYaml [("Notes/alpha.md", "---\ntitle: x")] = collect_notes noYaml [] :=
  c2_amended noYaml "Notes/alpha.md" "---\ntitle: x" [] (by decide) (by decide)

/-- C3: on metadata tags `["a", "b"]` with inline `#c` in the body, the
extracted tag set is `{a, b, ""}`, not the specified `{a, b, c}`:
`re.findall(r'#(\w+)', ...)` already returns the captured word without the
hash, and `tag[1:]` then removes the word's first character. -/
theorem c3_tag_mangled :
    (from_file yamlTagsAB "n.md" contentC3).map Note.tags = some {"a", "b", ""} ∧
    (from_file yamlTagsAB "n.md" contentC3).map Note.tags ≠ some {"a", "b", "c"} := by
  constructor
  · decide
  · decide

/-- C4: when the first member of a cluster has no links, `add_note`'s empty
(falsy) `common_links` is *replaced* by the second member's links instead of
being intersected: the result is `{a}` where the specified intersection is
`∅`. -/
theorem c4_common_links_not_intersection :
    ([noteNoLinks, noteLinkA].foldl add_note (mkThemeCluster "t" "")).common_links = {"a"} ∧
    ([noteNoLinks, noteLinkA].foldl add_note (mkThemeCluster "t" "")).common_links ≠
      noteNoLinks.links ∩ noteLinkA.links := by
  constructor
  · decide
  · decide

/-- C5 counterexample: on an empty corpus the run aborts with the
vectorizer's `ValueError` instead of succeeding with an empty master
index. -/
theorem c5_counterexample :
    mainRun zeroVec noYaml "2025-10-12 00:00:00" [] =
      .error (.valueError "empty vocabulary") ∧
    mainRun zeroVec noYaml "2025-10-12 00:00:00" [] ≠
      .ok ([], (masterIndexPath, masterIndex "2025-10-12 00:00:00" [])) := by
  constructor
  · rfl
  · decide

/-- C5 amended: on an empty corpus, `TfidfVectorizer.fit_transform` raises
`ValueError`, `main` propagates it (the top-level handler prints it), and no
master index is produced. -/
theorem c5_amended (vec : List String → List (List ℚ)) (yl : String → Option Metadata)
    (now : String) :
    mainRun vec yl now [] = .error (.valueError "empty vocabulary") := rfl

/-- C6 counterexample: two runs over the same one-file corpus at clock
readings one second apart produce different output — the master index
embeds the generation timestamp. -/
theorem c6_counterexample :
    mainRun vecOneZeroRow noYaml "2025-10-12 10:00:00" filesC6 ≠
      mainRun vecOneZeroRow noYaml "2025-10-12 10:00:01" filesC6 := by
  decide

/-- C6 amended: a rerun is identical except for the master index's
`Generated on:` line (element 1): removing that line makes the master index
lines equal, and the theme files (always none, by C1's failure) agree. -/
theorem c6_amended (vec : List String → List (List ℚ)) (yl : String → Option Metadata)
    (files : List (String × String)) (now1 now2 : String)
    (themes : List ThemeCluster) :
    (masterIndexLines now1 themes).eraseIdx 1 = (masterIndexLines now2 themes).eraseIdx 1 ∧
    producedThemeFiles (mainRun vec yl now1 files) =
      producedThemeFiles (mainRun vec yl now2 files) := by
  refine ⟨?_, ?_⟩
  · rfl
  · rw [no_theme_files, no_theme_files]


/-- The member list of a cluster has as many entries as the cluster has
members. -/
theorem sortedListBy_length {α : Type} (r : α → α → Prop) [DecidableRel r] [IsTotal α r]
    [IsTrans α r] [IsAntisymm α r] (s : Finset α) :
    (sortedListBy r s).length = s.card := by
  rcases s with ⟨m, hm⟩
  induction m using Quot.ind with
  | _ l =>
    show (List.insertionSort r l).length = Multiset.card (Quot.mk _ l)
    rw [(List.perm_insertionSort r l).length_eq]
    rfl

/-- C7: every cluster `find_clusters` returns has at least `MIN_THEME_SIZE`
members, and an index DBSCAN labels as noise (`none`, Python's `-1`) lies in
no cluster.  The hypothesis states the property tf-idf rows always have:
each is L2-normalised (unit self-inner-product) or zero. -/
theorem c7_min_cluster_size (vec : List String → List (List ℚ)) (notes : List Note)
    (hrows : ∀ r ∈ vec (documents notes), dot r r = 1 ∨ dot r r = 0)
    (cls : List (List Note)) (hcls : find_clusters vec notes = .ok cls)
    (l : List Note) (hl : l ∈ cls) :
    MIN_THEME_SIZE ≤ l.length ∧
    (∀ c ∈ dbscanClusters (pipelineDist (vec (documents notes)) notes.length)
        (1 - SIMILARITY_THRESHOLD) MIN_THEME_SIZE,
      ∀ x, memberLabel (pipelineDist (vec (documents notes)) notes.length)
          (1 - SIMILARITY_THRESHOLD) MIN_THEME_SIZE x = none → x ∉ c) := by
  have hrow1 : ∀ t : ℕ,
      dot ((vec (documents notes)).getD t []) ((vec (documents notes)).getD t []) = 1 ∨
      dot ((vec (documents notes)).getD t []) ((vec (documents notes)).getD t []) = 0 := by
    intro t
    by_cases ht : t < (vec (documents notes)).length
    · refine hrows _ ?_
      rw [List.getD_eq_getElem _ [] ht]
      exact List.getElem_mem ht
    · right
      rw [List.getD_eq_default _ [] (le_of_not_lt ht)]
      rfl
  have hsym : ∀ i j : Fin notes.length,
      pipelineDist (vec (documents notes)) notes.length i j =
      pipelineDist (vec (documents notes)) notes.length j i := by
    intro i j
    show 1 - simFn _ i.val j.val = 1 - simFn _ j.val i.val
    rw [simFn, simFn, dot_comm]
  have hself : ∀ i j : Fin notes.length,
      pipelineDist (vec (documents notes)) notes.length i j ≤ 1 - SIMILARITY_THRESHOLD →
      pipelineDist (vec (documents notes)) notes.length i i ≤ 1 - SIMILARITY_THRESHOLD := by
    intro i j hij
    rcases hrow1 i.val with h1 | h0
    · show 1 - simFn _ i.val i.val ≤ _
      rw [simFn, h1]
      norm_num [SIMILARITY_THRESHOLD]
    · exfalso
      have hz : simFn (vec (documents notes)) i.val j.val = 0 :=
        dot_eq_zero_of_self_eq_zero h0 _
      have hij2 : (1 : ℚ) - simFn (vec (documents notes)) i.val j.val ≤
          1 - SIMILARITY_THRESHOLD := hij
      rw [hz] at hij2
      norm_num [SIMILARITY_THRESHOLD] at hij2
  have hmain := dbscan_min_size (pipelineDist (vec (documents notes)) notes.length)
    (1 - SIMILARITY_THRESHOLD) hsym hself
  unfold find_clusters fit_transform at hcls
  by_cases hemp : (documents notes).isEmpty
  · rw [if_pos hemp] at hcls
    exact Except.noConfusion hcls
  · rw [if_neg hemp] at hcls
    have hcls2 : ((dbscanClusters (pipelineDist (vec (documents notes)) notes.length)
        (1 - SIMILARITY_THRESHOLD) MIN_THEME_SIZE).map
          (fun c => (sortedListBy (· ≤ ·) c).map (fun i => notes.get i))) = cls := by
      simpa using hcls
    rw [← hcls2] at hl
    obtain ⟨c, hcmem, rfl⟩ := List.mem_map.1 hl
    constructor
    · rw [List.length_map, sortedListBy_length]
      exact (hmain c hcmem).1
    · intro c2 hc2 x hx
      exact (hmain c2 hc2).2 x hx

theorem c7_witness :
    MIN_THEME_SIZE ≤ clusterFour.length ∧ noiseIdxFour ∉ clusterIdxFour := by
  have h := c7_min_cluster_size vecFour notesFour (by decide) [clusterFour]
    (by decide) clusterFour (by decide)
  exact ⟨h.1, h.2 clusterIdxFour (by decide) noiseIdxFour (by decide)⟩

/-- C8 counterexample: a document with a zero feature vector (no surviving
vocabulary terms) has `similarity[i][i] = 0`, not 1 — the diagonal is
computed by the matrix product, not set by convention. -/
theorem c8_counterexample :
    simFn [[0, 0], [1, 0]] 0 0 = 0 ∧ ¬ simFn [[0, 0], [1, 0]] 0 0 = 1 := by
  constructor
  · decide
  · decide

/-- C8 amended: `similarity[i][i] = 1` exactly for rows of unit
self-inner-product (every non-zero tf-idf row); a zero row has zero
similarity to itself and to every other document. -/
theorem c8_self_similarity (rows : List (List ℚ)) (i j : ℕ) :
    (dot (rows.getD i []) (rows.getD i []) = 1 → simFn rows i i = 1) ∧
    ((∀ x ∈ rows.getD i [], x = 0) → simFn rows i j = 0 ∧ simFn rows j i = 0) := by
  constructor
  · intro h
    simpa [simFn] using h
  · intro h
    refine ⟨dot_zero_row h _, ?_⟩
    rw [simFn, dot_comm]
    exact dot_zero_row h _

theorem c8_witness :
    simFn [[0, 0], [1, 0]] 1 1 = 1 ∧
    (simFn [[0, 0], [1, 0]] 0 1 = 0 ∧ simFn [[0, 0], [1, 0]] 1 0 = 0) :=
  ⟨(c8_self_similarity [[0, 0], [1, 0]] 1 1).1 (by decide),
   (c8_self_similarity [[0, 0], [1, 0]] 0 1).2 (by decide)⟩

/-- C9: with non-negative rows of self-inner-product at most 1 (unit or
zero rows, as the vectorizer produces), every similarity entry is by
construction the inner product of the normalised rows — the cosine
similarity — and lies in [0, 1]; in this exact arithmetic no overshoot
arises, so no clamping is needed or performed. -/
theorem c9_cosine_bounded (rows : List (List ℚ))
    (hpos : ∀ r ∈ rows, ∀ x ∈ r, 0 ≤ x)
    (hunit : ∀ r ∈ rows, dot r r ≤ 1) (i j : ℕ) :
    simFn rows i j = dot (rows.getD i []) (rows.getD j []) ∧
    0 ≤ simFn rows i j ∧ simFn rows i j ≤ 1 := by
  have hrow : ∀ t : ℕ, (∀ x ∈ rows.getD t [], 0 ≤ x) ∧
      dot (rows.getD t []) (rows.getD t []) ≤ 1 := by
    intro t
    by_cases ht : t < rows.length
    · have hm : rows.getD t [] ∈ rows := by
        rw [List.getD_eq_getElem rows [] ht]
        exact List.getElem_mem ht
      exact ⟨hpos _ hm, hunit _ hm⟩
    · rw [List.getD_eq_default rows [] (le_of_not_lt ht)]
      refine ⟨by simp, ?_⟩
      rw [dot_nil_left]
      norm_num
  exact ⟨rfl, dot_nonneg (hrow i).1 (hrow j).1,
    dot_le_one (hrow i).2 (hrow j).2 (dot_nonneg (hrow i).1 (hrow j).1)⟩

theorem c9_witness :
    simFn [[1, 0], [0, 1]] 0 1 =
      dot ([[1, 0], [0, 1]].getD 0 []) (([[1, 0], [0, 1]] : List (List ℚ)).getD 1 []) ∧
    0 ≤ simFn [[1, 0], [0, 1]] 0 1 ∧ simFn [[1, 0], [0, 1]] 0 1 ≤ 1 :=
  c9_cosine_bounded [[1, 0], [0, 1]] (by decide) (by decide) 0 1

/-- C10 counterexample: the body `go #c [[]]` produces the empty string in
both the tag set (single-letter inline tag minus its first character) and
the link set (the `[[]]` capture). -/
theorem c10_counterexample :
    from_file noYaml "x.md" "go #c [[]]" = some noteBad ∧
    "" ∈ noteBad.tags ∧ "" ∈ noteBad.links := by
  refine ⟨by decide, by decide, by decide⟩

/-- C10 amended: tags and links are Python sets, hence duplicate-free; the
title is non-empty whenever the filename stem is non-empty and the metadata
never supplies an empty title; but empty strings can enter `links` (via
`[[]]`) and `tags` (every inline match contributes its captured word minus
the first character, though the captured word itself is never empty). -/
theorem c10_amended (yl : String → Option Metadata) (p c : String) (nt : Note) (w : String)
    (h : from_file yl p c = some nt)
    (hstem : stemOfPath p ≠ "")
    (hyl : ∀ s m t, yl s = some m → m.title = some t → t ≠ "") :
    nt.title ≠ "" ∧ nt.tags.val.Nodup ∧ nt.links.val.Nodup ∧
    (w ∈ inlineTagWords nt.content.data → w ≠ "") := by
  refine ⟨?_, nt.tags.nodup, nt.links.nodup, fun hw => inlineTagWords_ne_nil _ w hw⟩
  unfold from_file at h
  dsimp only at h
  split at h
  · split at h
    · obtain rfl := Option.some.inj h
      dsimp only
      split
      · rename_i m heq
        cases hmt : m.title with
        | none => simpa [hmt] using hstem
        | some t => simpa [hmt] using hyl _ m t heq hmt
      · simpa using hstem
    · simp at h
  · obtain rfl := Option.some.inj h
    simpa using hstem

theorem c10_witness :
    noteBad.title ≠ "" ∧ noteBad.tags.val.Nodup ∧ noteBad.links.val.Nodup ∧
    ("c" : String) ≠ "" := by
  have h := c10_amended noYaml "x.md" "go #c [[]]" noteBad "c" (by decide) (by decide)
    (fun s m t hm => by simp [noYaml] at hm)
  exact ⟨h.1, h.2.1, h.2.2.1, h.2.2.2 (by decide)⟩

end Claims
